import Mathlib

/-!
Verification of a two-component Gray–Scott reaction–diffusion integrator
on a toroidal 2D grid.

Fields are modelled as dense 2D arrays: lists of rows of rationals
(exact arithmetic standing for the floating-point values of the source).
The operators below are translated from the source notebook:

* `wrap_pad`    — periodic halo padding (column concat, then row concat);
* `kernel`      — the fixed 3×3 discrete-Laplacian stencil;
* `conv2d_valid`— a VALID-mode 3×3 cross-correlation;
* `react_a`, `react_b` — the pointwise Gray–Scott reaction terms;
* `step`        — one explicit-Euler update;
* `evolution`   — the main loop with its sampling cadence;
* `init_state`  — the seeded initial condition (NumPy slice assignment
                  clamps out-of-range slices, which `set_block` mirrors).
-/

namespace RD

/-- A dense 2D field: a list of rows of rationals. -/
abbrev Field : Type := List (List ℚ)

/-- Total 2D indexing with default 0, mirroring in-range array access. -/
def getQ (m : Field) (i j : Nat) : ℚ := (m.getD i []).getD j 0

/-- A field is an `N×N` square array. -/
def IsSquare (m : Field) (N : Nat) : Prop :=
  m.length = N ∧ ∀ r ∈ m, r.length = N

/-- The reaction/diffusion constants of the run:
`DA`, `DB`, `f`, `k` and the time step `dt` (`TIME_STEP`). -/
structure Params where
  DA : ℚ
  DB : ℚ
  f : ℚ
  k : ℚ
  dt : ℚ

/-- The pair of concentration fields `(a, b)`. -/
structure State where
  a : Field
  b : Field
deriving DecidableEq

/-- The first line of `wrap_pad`: concatenate the last `size` columns,
the tensor, and the first `size` columns along the column axis, as in
`M1 = tf.concat([tensor[:,:,-size:,:], tensor, tensor[:,:,0:size,:]], 2)`. -/
def wrap_cols (tensor : Field) (size : Nat) : Field :=
  tensor.map (fun r => r.drop (r.length - size) ++ r ++ r.take size)

/-- Periodic halo padding, translated from `wrap_pad(tensor, size)`:
wrap the columns first, then concatenate the last `size` rows, the
intermediate result, and its first `size` rows along the row axis, as in
`M1 = tf.concat([M1[:,-size:,:,:], M1, M1[:,0:size,:,:]], 1)`. -/
def wrap_pad (tensor : Field) (size : Nat) : Field :=
  (wrap_cols tensor size).drop ((wrap_cols tensor size).length - size) ++
    wrap_cols tensor size ++ (wrap_cols tensor size).take size

/-- The fixed 3×3 Laplacian stencil
`[[0.05, 0.2, 0.05], [0.2, -1, 0.2], [0.05, 0.2, 0.05]]`. -/
def kernel : Fin 3 → Fin 3 → ℚ
  | 0, 0 => 1/20
  | 0, 1 => 1/5
  | 0, 2 => 1/20
  | 1, 0 => 1/5
  | 1, 1 => -1
  | 1, 2 => 1/5
  | 2, 0 => 1/20
  | 2, 1 => 1/5
  | 2, 2 => 1/20

/-- A kernel scaled by a constant, as in
`kernel_a = DA * TIME_STEP * kernel`. -/
def scaleK (c : ℚ) (K : Fin 3 → Fin 3 → ℚ) : Fin 3 → Fin 3 → ℚ :=
  fun i j => c * K i j

/-- VALID-mode 3×3 cross-correlation, as computed by
`tf.nn.conv2d(·, ·, strides=[1,1,1,1], padding='VALID')` on a single
channel: output cell `(i,j)` is the dot product of the 3×3 window of the
input anchored at `(i,j)` with the kernel; the output loses 2 rows and 2
columns. -/
def conv2d_valid (p : Field) (K : Fin 3 → Fin 3 → ℚ) : Field :=
  (List.range (p.length - 2)).map fun i =>
    (List.range ((p.headD []).length - 2)).map fun j =>
      ∑ di : Fin 3, ∑ dj : Fin 3, getQ p (i + di.val) (j + dj.val) * K di dj

/-- Diffusion of one component, as in
`diff_a = tf.nn.conv2d(wrap_pad(input_a, 1), kernel_a, ..., 'VALID')`
with `kernel_a = DA * TIME_STEP * kernel`. -/
def diffuse (field : Field) (D dt : ℚ) : Field :=
  conv2d_valid (wrap_pad field 1) (scaleK (D * dt) kernel)

/-- Elementwise combination of two same-shaped fields. -/
def emap2 (f : ℚ → ℚ → ℚ) (x y : Field) : Field :=
  List.zipWith (List.zipWith f) x y

/-- Reaction term for component A, from
`react_a = TIME_STEP * (-input_a*input_b*input_b + f*(1.0 - input_a))`. -/
def react_a (p : Params) (a b : Field) : Field :=
  emap2 (fun x y => p.dt * ((-x) * y * y + p.f * (1 - x))) a b

/-- Reaction term for component B, from
`react_b = TIME_STEP * (input_a*input_b*input_b - (k+f)*input_b)`. -/
def react_b (p : Params) (a b : Field) : Field :=
  emap2 (fun x y => p.dt * (x * y * y - (p.k + p.f) * y)) a b

/-- One explicit-Euler step, from the graph
`next_a = input_a + diff_a + react_a`,
`next_b = input_b + diff_b + react_b`. -/
def step (p : Params) (s : State) : State :=
  let diff_a := diffuse s.a p.DA p.dt
  let diff_b := diffuse s.b p.DB p.dt
  let r_a := react_a p s.a s.b
  let r_b := react_b p s.a s.b
  ⟨emap2 (fun x y => x + y) (emap2 (fun x y => x + y) s.a diff_a) r_a,
   emap2 (fun x y => x + y) (emap2 (fun x y => x + y) s.b diff_b) r_b⟩

/-- The body of the main loop: starting at loop counter `i` with `fuel`
iterations left, run `step` each iteration and retain the new state
whenever the 1-based iteration index `i+1` is a multiple of `n_steps`,
as in `if (i+1)%N_STEPS==0: evolution.append([new_a, new_b])`. -/
def evolution_aux (p : Params) (n_steps : Nat) : State → Nat → Nat → List State
  | _, _, 0 => []
  | s, i, fuel + 1 =>
    let s' := step p s
    (if (i + 1) % n_steps = 0 then [s'] else []) ++
      evolution_aux p n_steps s' (i + 1) fuel

/-- The retained evolution of the run: the initial state (retained before
the loop as `evolution = [[a,b]]`), followed by the states sampled by the
loop `for i in range(n_times)`. -/
def evolution (p : Params) (init : State) (n_times n_steps : Nat) : List State :=
  init :: evolution_aux p n_steps init 0 n_times

/-- NumPy-style square block slice assignment
`m[s:s+sz, s:s+sz] = v`: rows and columns beyond the array bounds are
silently clamped, exactly as NumPy slicing clamps out-of-range slices. -/
def set_block (m : Field) (s sz : Nat) (v : ℚ) : Field :=
  m.mapIdx fun i r =>
    if s ≤ i ∧ i < s + sz then
      r.mapIdx (fun j x => if s ≤ j ∧ j < s + sz then v else x)
    else r

/-- The seeded initial condition, from
`a = np.ones((N, N))`, `b = np.zeros((N, N))`,
`b[SEED_START:SEED_START+SEED_SIZE, SEED_START:SEED_START+SEED_SIZE] = 1.0`. -/
def init_state (N s sz : Nat) : State :=
  ⟨List.replicate N (List.replicate N (1 : ℚ)),
   set_block (List.replicate N (List.replicate N (0 : ℚ))) s sz 1⟩

/-- Modelled from the spec: `initialize(params)` as §4.1 words it — it
"fails (configuration error) if `SEED_START + SEED_SIZE > N`", otherwise
it succeeds with A all ones and B all zeros except the seed block set to
one.  The source notebook has no such check; this definition exists only
to be compared against `init_state`. -/
def init_spec (N s sz : Nat) : Option State :=
  if s + sz > N then none
  else some
    ⟨List.replicate N (List.replicate N (1 : ℚ)),
     (List.range N).map fun i =>
       (List.range N).map fun j =>
         if s ≤ i ∧ i < s + sz ∧ s ≤ j ∧ j < s + sz then (1 : ℚ) else 0⟩

/-- The parameters of the reference run:
`DA = 1.0, DB = 0.5, f = 0.055, k = 0.062, TIME_STEP = 1.0`. -/
def default_params : Params :=
  ⟨1, 1/2, 55/1000, 62/1000, 1⟩

/-- The source row (or column) of a width-1 halo index on an `N×N`
field: padded index `0` wraps to `N-1`, indices `1..N` shift down by
one, and padded index `N+1` wraps to `0`. -/
def unpad (N i : Nat) : Nat :=
  if i = 0 then N - 1 else if i ≤ N then i - 1 else 0

theorem unpad_lt (N i : Nat) (hN : 0 < N) : unpad N i < N := by
  unfold unpad
  split_ifs <;> omega

/-! Basic indexing helpers for `List.getD`. -/

theorem getD_eq_getElem {α : Type} (l : List α) (i : Nat) (d : α)
    (h : i < l.length) : l.getD i d = l[i] := by
  simp [List.getD_eq_getElem?_getD, List.getElem?_eq_getElem h]

theorem getD_mem {α : Type} (l : List α) (i : Nat) (d : α)
    (h : i < l.length) : l.getD i d ∈ l := by
  rw [getD_eq_getElem l i d h]
  exact List.getElem_mem h

theorem getD_map {α β : Type} (f : α → β) (l : List α) (i : Nat)
    (da : α) (db : β) (h : i < l.length) :
    (l.map f).getD i db = f (l.getD i da) := by
  rw [getD_eq_getElem _ i db (by simpa using h), getD_eq_getElem _ i da h]
  simp

theorem getD_range_map {α : Type} (f : Nat → α) (n i : Nat) (d : α)
    (h : i < n) :
    ((List.range n).map f).getD i d = f i := by
  rw [List.getD_eq_getElem?_getD, List.getElem?_map, List.getElem?_range h]
  rfl

theorem getD_replicate {α : Type} (a d : α) (n i : Nat) (h : i < n) :
    (List.replicate n a).getD i d = a := by
  rw [List.getD_eq_getElem?_getD, List.getElem?_replicate, if_pos h]
  rfl

theorem getD_zipWith {α β γ : Type} (F : α → β → γ) (x : List α)
    (y : List β) (i : Nat) (da : α) (db : β) (dc : γ)
    (hx : i < x.length) (hy : i < y.length) :
    (List.zipWith F x y).getD i dc = F (x.getD i da) (y.getD i db) := by
  rw [List.getD_eq_getElem?_getD, List.getElem?_zipWith,
    List.getElem?_eq_getElem hx, List.getElem?_eq_getElem hy,
    getD_eq_getElem x i da hx, getD_eq_getElem y i db hy]
  rfl

theorem getD_mapIdx {α β : Type} (f : Nat → α → β) (l : List α) (i : Nat)
    (da : α) (db : β) (h : i < l.length) :
    (l.mapIdx f).getD i db = f i (l.getD i da) := by
  rw [List.getD_eq_getElem?_getD, List.getElem?_mapIdx,
    List.getElem?_eq_getElem h, getD_eq_getElem l i da h]
  rfl

theorem headD_eq_getD_zero {α : Type} (l : List α) (d : α) :
    l.headD d = l.getD 0 d := by
  cases l <;> rfl

/-- Indexing into the width-1 wrap of a single axis: the concatenation
of the last element, the list, and the first element, at index
`i ≤ N + 1`, reads the source at index `unpad N i`. -/
theorem getD_wrap1 {α : Type} (d : α) (l : List α) (N : Nat)
    (hl : l.length = N) (hN : 0 < N) (i : Nat) (hi : i ≤ N + 1) :
    (l.drop (l.length - 1) ++ l ++ l.take 1).getD i d =
      l.getD (unpad N i) d := by
  have hdl : (l.drop (l.length - 1)).length = 1 := by
    rw [List.length_drop, hl]; omega
  have h2 : (l.drop (l.length - 1) ++ l).length = 1 + N := by
    rw [List.length_append, hdl, hl]
  simp only [List.getD_eq_getElem?_getD]
  congr 1
  by_cases h0 : i = 0
  · subst h0
    rw [List.getElem?_append_left (by omega),
      List.getElem?_append_left (by omega), List.getElem?_drop]
    have hu : unpad N 0 = N - 1 := by simp [unpad]
    rw [hu]
    congr 1
    omega
  · by_cases hle : i ≤ N
    · rw [List.getElem?_append_left (by omega),
        List.getElem?_append_right (by omega), hdl]
      have hu : unpad N i = i - 1 := by
        unfold unpad
        rw [if_neg h0, if_pos hle]
      rw [hu]
    · rw [List.getElem?_append_right (by omega), h2]
      have hi1 : i - (1 + N) = 0 := by omega
      rw [hi1, List.getElem?_take_of_lt (by omega)]
      have hu : unpad N i = 0 := by
        unfold unpad
        rw [if_neg h0, if_neg hle]
      rw [hu]

/-! Shape lemmas. -/

theorem isSquare_iff (m : Field) (N : Nat) :
    IsSquare m N ↔
      m.length = N ∧ ∀ i, i < N → (m.getD i []).length = N := by
  constructor
  · rintro ⟨hlen, hrows⟩
    refine ⟨hlen, fun i hi => hrows _ (getD_mem m i [] (by omega))⟩
  · rintro ⟨hlen, hrows⟩
    refine ⟨hlen, fun r hr => ?_⟩
    obtain ⟨i, hi, rfl⟩ := List.getElem_of_mem hr
    rw [← getD_eq_getElem m i [] hi]
    exact hrows i (by omega)

theorem isSquare_row_length (m : Field) (N : Nat) (hm : IsSquare m N)
    (i : Nat) (hi : i < N) : (m.getD i []).length = N :=
  ((isSquare_iff m N).mp hm).2 i hi

theorem isSquare_replicate (N : Nat) (c : ℚ) :
    IsSquare (List.replicate N (List.replicate N c)) N := by
  refine ⟨List.length_replicate _ _, fun r hr => ?_⟩
  rw [List.eq_of_mem_replicate hr]
  exact List.length_replicate _ _

theorem wrap_cols_length (m : Field) (size : Nat) :
    (wrap_cols m size).length = m.length := by
  simp [wrap_cols]

theorem wrap_row_length {α : Type} (l : List α) (N : Nat)
    (hl : l.length = N) (hN : 0 < N) :
    (l.drop (l.length - 1) ++ l ++ l.take 1).length = N + 2 := by
  simp [List.length_append, List.length_drop, List.length_take, hl]
  omega

theorem wrap_pad_length (m : Field) (N : Nat) (hm : IsSquare m N)
    (hN : 0 < N) : (wrap_pad m 1).length = N + 2 := by
  unfold wrap_pad
  exact wrap_row_length _ N ((wrap_cols_length m 1).trans hm.1) hN

/-- Entry `(i, j)` of the width-1 periodic padding of an `N×N` field is
entry `(unpad N i, unpad N j)` of the field itself. -/
theorem getQ_wrap_pad (m : Field) (N : Nat) (hm : IsSquare m N)
    (hN : 0 < N) (i j : Nat) (hi : i ≤ N + 1) (hj : j ≤ N + 1) :
    getQ (wrap_pad m 1) i j = getQ m (unpad N i) (unpad N j) := by
  have hlen : (wrap_cols m 1).length = N := (wrap_cols_length m 1).trans hm.1
  have hmlen : m.length = N := hm.1
  unfold getQ wrap_pad
  rw [getD_wrap1 [] _ N hlen hN i hi]
  have hup : unpad N i < N := unpad_lt N i hN
  unfold wrap_cols
  rw [getD_map _ m (unpad N i) [] [] (by omega)]
  have hrow : (m.getD (unpad N i) []).length = N :=
    isSquare_row_length m N hm _ hup
  rw [getD_wrap1 0 _ N hrow hN j hj]

theorem wrap_pad_headD_length (m : Field) (N : Nat) (hm : IsSquare m N)
    (hN : 0 < N) : ((wrap_pad m 1).headD []).length = N + 2 := by
  have hlen : (wrap_cols m 1).length = N := (wrap_cols_length m 1).trans hm.1
  have hmlen : m.length = N := hm.1
  rw [headD_eq_getD_zero]
  unfold wrap_pad
  rw [getD_wrap1 [] _ N hlen hN 0 (by omega)]
  have hup : unpad N 0 < N := unpad_lt N 0 hN
  unfold wrap_cols
  rw [getD_map _ m (unpad N 0) [] [] (by omega)]
  exact wrap_row_length _ N (isSquare_row_length m N hm _ hup) hN

/-! Entry lemmas for the convolution and the elementwise operators. -/

/-- Output cell `(i, j)` of the VALID 3×3 convolution of an
`(R+2)×(C+2)` input is the dot product of the window anchored there
with the kernel. -/
theorem getQ_conv2d_valid (p : Field) (K : Fin 3 → Fin 3 → ℚ)
    (R C i j : Nat) (hR : p.length = R + 2)
    (hC : (p.headD []).length = C + 2) (hi : i < R) (hj : j < C) :
    getQ (conv2d_valid p K) i j =
      ∑ di : Fin 3, ∑ dj : Fin 3,
        getQ p (i + di.val) (j + dj.val) * K di dj := by
  unfold conv2d_valid
  have h1 : p.length - 2 = R := by omega
  have h2 : (p.headD []).length - 2 = C := by omega
  rw [h1, h2]
  unfold getQ
  rw [getD_range_map _ R i [] hi, getD_range_map _ C j 0 hj]

theorem conv2d_valid_square (p : Field) (K : Fin 3 → Fin 3 → ℚ)
    (N : Nat) (hR : p.length = N + 2)
    (hC : (p.headD []).length = N + 2) :
    IsSquare (conv2d_valid p K) N := by
  unfold conv2d_valid
  rw [hR, hC]
  have h2 : N + 2 - 2 = N := by omega
  rw [h2]
  refine ⟨by simp, fun r hr => ?_⟩
  obtain ⟨i, _, rfl⟩ := List.mem_map.mp hr
  simp

theorem diffuse_square (m : Field) (N : Nat) (hm : IsSquare m N)
    (D dt : ℚ) : IsSquare (diffuse m D dt) N := by
  rcases Nat.eq_zero_or_pos N with hN | hN
  · subst hN
    have hm0 : m = [] := List.length_eq_zero.mp hm.1
    subst hm0
    exact ⟨rfl, by intro r hr; simp [diffuse, conv2d_valid, wrap_pad, wrap_cols] at hr⟩
  · exact conv2d_valid_square _ _ N (wrap_pad_length m N hm hN)
      (wrap_pad_headD_length m N hm hN)

theorem getQ_emap2 (f : ℚ → ℚ → ℚ) (x y : Field) (N : Nat)
    (hx : IsSquare x N) (hy : IsSquare y N) (i j : Nat)
    (hi : i < N) (hj : j < N) :
    getQ (emap2 f x y) i j = f (getQ x i j) (getQ y i j) := by
  have hxl : x.length = N := hx.1
  have hyl : y.length = N := hy.1
  have hxr : (x.getD i []).length = N := isSquare_row_length x N hx i hi
  have hyr : (y.getD i []).length = N := isSquare_row_length y N hy i hi
  unfold getQ emap2
  rw [getD_zipWith _ x y i [] [] [] (by omega) (by omega),
    getD_zipWith f _ _ j 0 0 0 (by omega) (by omega)]

theorem emap2_square (f : ℚ → ℚ → ℚ) (x y : Field) (N : Nat)
    (hx : IsSquare x N) (hy : IsSquare y N) :
    IsSquare (emap2 f x y) N := by
  rw [isSquare_iff]
  have hxl : x.length = N := hx.1
  have hyl : y.length = N := hy.1
  constructor
  · unfold emap2
    rw [List.length_zipWith, hxl, hyl, Nat.min_self]
  · intro i hi
    have hxr : (x.getD i []).length = N := isSquare_row_length x N hx i hi
    have hyr : (y.getD i []).length = N := isSquare_row_length y N hy i hi
    unfold emap2
    rw [getD_zipWith _ x y i [] [] [] (by omega) (by omega),
      List.length_zipWith, hxr, hyr, Nat.min_self]

theorem react_a_square (p : Params) (x y : Field) (N : Nat)
    (hx : IsSquare x N) (hy : IsSquare y N) :
    IsSquare (react_a p x y) N :=
  emap2_square _ x y N hx hy

theorem react_b_square (p : Params) (x y : Field) (N : Nat)
    (hx : IsSquare x N) (hy : IsSquare y N) :
    IsSquare (react_b p x y) N :=
  emap2_square _ x y N hx hy

theorem step_a_square (p : Params) (s : State) (N : Nat)
    (ha : IsSquare s.a N) (hb : IsSquare s.b N) :
    IsSquare (step p s).a N :=
  emap2_square _ _ _ N
    (emap2_square _ _ _ N ha (diffuse_square s.a N ha p.DA p.dt))
    (react_a_square p s.a s.b N ha hb)

theorem step_b_square (p : Params) (s : State) (N : Nat)
    (ha : IsSquare s.a N) (hb : IsSquare s.b N) :
    IsSquare (step p s).b N :=
  emap2_square _ _ _ N
    (emap2_square _ _ _ N hb (diffuse_square s.b N hb p.DB p.dt))
    (react_b_square p s.a s.b N ha hb)

/-- Two `N×N` fields with the same entries are equal. -/
theorem field_ext (x y : Field) (N : Nat) (hx : IsSquare x N)
    (hy : IsSquare y N)
    (h : ∀ i j, i < N → j < N → getQ x i j = getQ y i j) : x = y := by
  have hxl : x.length = N := hx.1
  have hyl : y.length = N := hy.1
  apply List.ext_getElem (by omega)
  intro i h1 h2
  have hi : i < N := by omega
  have hxr : (x.getD i []).length = N := isSquare_row_length x N hx i hi
  have hyr : (y.getD i []).length = N := isSquare_row_length y N hy i hi
  rw [← getD_eq_getElem x i [] h1, ← getD_eq_getElem y i [] h2]
  apply List.ext_getElem (by omega)
  intro j h3 h4
  have hj : j < N := by omega
  have := h i j hi hj
  unfold getQ at this
  rw [← getD_eq_getElem _ j 0 h3, ← getD_eq_getElem _ j 0 h4]
  exact this

/-! Closed forms for the sampling loop. -/

/-- The loop body retains exactly the post-step states of the
iterations `m` (0-based) with `(i + m + 1) % n_steps = 0`. -/
theorem evolution_aux_eq (p : Params) (S : Nat) :
    ∀ (fuel : Nat) (s : State) (i : Nat),
      evolution_aux p S s i fuel =
        (List.range fuel).filterMap fun m =>
          if (i + m + 1) % S = 0 then some ((step p)^[m + 1] s)
          else none := by
  intro fuel
  induction fuel with
  | zero => intro s i; rfl
  | succ n ih =>
    intro s i
    have hfun :
        ((fun m => if (i + m + 1) % S = 0
            then some ((step p)^[m + 1] s) else none) ∘ Nat.succ) =
          fun m => if ((i + 1) + m + 1) % S = 0
            then some ((step p)^[m + 1] (step p s)) else none := by
      funext m
      simp only [Function.comp_apply, Nat.succ_eq_add_one]
      have hc : i + (m + 1) + 1 = i + 1 + m + 1 := by omega
      rw [hc, Function.iterate_succ_apply]
    rw [List.range_succ_eq_map, List.filterMap_cons, List.filterMap_map, hfun,
      ← ih (step p s) (i + 1)]
    simp only [Nat.add_zero, evolution_aux]
    by_cases h : (i + 1) % S = 0
    · simp [h, Function.iterate_one]
    · simp [h]

/-- With a positive sampling interval, the retained post-step states are
exactly the states after `S, 2S, 3S, …` steps. -/
theorem filterMap_sample_eq_map (g : State → State) (S : Nat)
    (s : State) :
    ∀ T, ((List.range T).filterMap fun m =>
        if (m + 1) % S = 0 then some (g^[m + 1] s) else none) =
      (List.range (T / S)).map fun t => g^[(t + 1) * S] s := by
  intro T
  induction T with
  | zero => simp
  | succ n ih =>
    rw [List.range_succ, List.filterMap_append, ih]
    by_cases h : (n + 1) % S = 0
    · have hdvd : S ∣ n + 1 := Nat.dvd_of_mod_eq_zero h
      have hdiv : (n + 1) / S = n / S + 1 := Nat.succ_div_of_dvd hdvd
      have hmul : (n / S + 1) * S = n + 1 := by
        have h2 : (n + 1) / S * S = n + 1 := Nat.div_mul_cancel hdvd
        rw [hdiv] at h2
        exact h2
      rw [hdiv, List.range_succ, List.map_append]
      simp [h, hmul]
    · have hndvd : ¬ S ∣ (n + 1) := by
        intro hdvd
        obtain ⟨c, hc⟩ := hdvd
        rw [hc] at h
        exact h (Nat.mul_mod_right S c)
      have hdiv : (n + 1) / S = n / S := Nat.succ_div_of_not_dvd hndvd
      rw [hdiv]
      simp [h]

/-- Closed form of the whole run: the initial state followed by the
states after `S, 2S, …, (T/S)·S` steps. -/
theorem evolution_closed (p : Params) (init : State) (T S : Nat) :
    evolution p init T S =
      init :: (List.range (T / S)).map fun t => (step p)^[(t + 1) * S] init := by
  unfold evolution
  rw [evolution_aux_eq p S T init 0]
  simp only [Nat.zero_add]
  rw [filterMap_sample_eq_map (step p) S init T]

/-! Initialization lemmas. -/

theorem init_a_square (N s sz : Nat) : IsSquare (init_state N s sz).a N :=
  isSquare_replicate N 1

theorem set_block_square (m : Field) (N s sz : Nat) (v : ℚ)
    (hm : IsSquare m N) : IsSquare (set_block m s sz v) N := by
  rw [isSquare_iff] at hm ⊢
  obtain ⟨hlen, hrows⟩ := hm
  constructor
  · unfold set_block
    rw [List.length_mapIdx, hlen]
  · intro i hi
    unfold set_block
    rw [getD_mapIdx _ m i [] [] (by omega)]
    by_cases hri : s ≤ i ∧ i < s + sz
    · rw [if_pos hri, List.length_mapIdx]
      exact hrows i hi
    · rw [if_neg hri]
      exact hrows i hi

theorem init_b_square (N s sz : Nat) : IsSquare (init_state N s sz).b N :=
  set_block_square _ N s sz 1 (isSquare_replicate N 0)

theorem getQ_init_a (N s sz i j : Nat) (hi : i < N) (hj : j < N) :
    getQ (init_state N s sz).a i j = 1 := by
  unfold getQ init_state
  rw [getD_replicate _ [] N i hi, getD_replicate _ 0 N j hj]

theorem getQ_init_b (N s sz i j : Nat) (hi : i < N) (hj : j < N) :
    getQ (init_state N s sz).b i j =
      if s ≤ i ∧ i < s + sz ∧ s ≤ j ∧ j < s + sz then 1 else 0 := by
  unfold getQ init_state set_block
  rw [getD_mapIdx _ _ i [] [] (by simpa using hi),
    getD_replicate _ [] N i hi]
  by_cases hri : s ≤ i ∧ i < s + sz
  · rw [if_pos hri, getD_mapIdx _ _ j 0 0 (by simpa using hj),
      getD_replicate _ 0 N j hj]
    by_cases hrj : s ≤ j ∧ j < s + sz
    · rw [if_pos hrj, if_pos ⟨hri.1, hri.2, hrj.1, hrj.2⟩]
    · rw [if_neg hrj, if_neg (by tauto)]
  · rw [if_neg hri, getD_replicate _ 0 N j hj, if_neg (by tauto)]

/-! Diffusion of a constant field. -/

theorem kernel_sum_zero :
    (∑ di : Fin 3, ∑ dj : Fin 3, kernel di dj) = 0 := by
  simp [Fin.sum_univ_three, kernel]
  norm_num

/-- The stencil annihilates constant fields: every entry of the
diffusion of a field that is `c` everywhere is `0`. -/
theorem diffuse_const_entry (m : Field) (N : Nat) (c D dt : ℚ)
    (hm : IsSquare m N)
    (hc : ∀ i, i < N → ∀ j, j < N → getQ m i j = c)
    (i j : Nat) (hi : i < N) (hj : j < N) :
    getQ (diffuse m D dt) i j = 0 := by
  have hN : 0 < N := by omega
  unfold diffuse
  rw [getQ_conv2d_valid _ _ N N i j (wrap_pad_length m N hm hN)
    (wrap_pad_headD_length m N hm hN) hi hj]
  have hz : ∀ di : Fin 3, ∀ dj : Fin 3,
      getQ (wrap_pad m 1) (i + di.val) (j + dj.val) = c := by
    intro di dj
    rw [getQ_wrap_pad m N hm hN _ _ (by omega) (by omega)]
    exact hc _ (unpad_lt N _ hN) _ (unpad_lt N _ hN)
  calc (∑ di : Fin 3, ∑ dj : Fin 3,
        getQ (wrap_pad m 1) (i + di.val) (j + dj.val) *
          scaleK (D * dt) kernel di dj)
      = ∑ di : Fin 3, ∑ dj : Fin 3, c * (D * dt) * kernel di dj := by
        refine Finset.sum_congr rfl fun di _ => ?_
        refine Finset.sum_congr rfl fun dj _ => ?_
        rw [hz di dj]
        unfold scaleK
        ring
    _ = c * (D * dt) * ∑ di : Fin 3, ∑ dj : Fin 3, kernel di dj := by
        rw [Finset.mul_sum]
        refine Finset.sum_congr rfl fun di _ => ?_
        rw [Finset.mul_sum]
    _ = 0 := by rw [kernel_sum_zero, mul_zero]

theorem step_a_eq (p : Params) (s : State) :
    (step p s).a = emap2 (fun x y => x + y)
      (emap2 (fun x y => x + y) s.a (diffuse s.a p.DA p.dt))
      (react_a p s.a s.b) := rfl

theorem step_b_eq (p : Params) (s : State) :
    (step p s).b = emap2 (fun x y => x + y)
      (emap2 (fun x y => x + y) s.b (diffuse s.b p.DB p.dt))
      (react_b p s.a s.b) := rfl

/-! The claims. -/

/-- C1: a single step returns exactly
`newA = A + diffuse(A, D_A, dt) + reactA` and
`newB = B + diffuse(B, D_B, dt) + reactB` elementwise, with both the
diffusion and the reaction terms computed from the same pre-step `A`
and `B`. -/
theorem C1_step_elementwise (p : Params) (s : State) (N : Nat)
    (ha : IsSquare s.a N) (hb : IsSquare s.b N) (i j : Nat)
    (hi : i < N) (hj : j < N) :
    getQ (step p s).a i j =
      getQ s.a i j + getQ (diffuse s.a p.DA p.dt) i j +
        getQ (react_a p s.a s.b) i j ∧
    getQ (step p s).b i j =
      getQ s.b i j + getQ (diffuse s.b p.DB p.dt) i j +
        getQ (react_b p s.a s.b) i j := by
  have hda := diffuse_square s.a N ha p.DA p.dt
  have hdb := diffuse_square s.b N hb p.DB p.dt
  have hra := react_a_square p s.a s.b N ha hb
  have hrb := react_b_square p s.a s.b N ha hb
  constructor
  · rw [step_a_eq,
      getQ_emap2 _ _ _ N (emap2_square _ _ _ N ha hda) hra i j hi hj,
      getQ_emap2 _ _ _ N ha hda i j hi hj]
  · rw [step_b_eq,
      getQ_emap2 _ _ _ N (emap2_square _ _ _ N hb hdb) hrb i j hi hj,
      getQ_emap2 _ _ _ N hb hdb i j hi hj]

theorem C1_step_elementwise_witness :
    IsSquare [[(1 : ℚ)]] 1 ∧
    (getQ (step default_params ⟨[[1]], [[0]]⟩).a 0 0 =
      getQ [[(1 : ℚ)]] 0 0 + getQ (diffuse [[(1 : ℚ)]] default_params.DA default_params.dt) 0 0 +
        getQ (react_a default_params [[1]] [[0]]) 0 0) := by
  have hsq1 : IsSquare [[(1 : ℚ)]] 1 := ⟨rfl, by decide⟩
  have hsq0 : IsSquare [[(0 : ℚ)]] 1 := ⟨rfl, by decide⟩
  exact ⟨hsq1,
    (C1_step_elementwise default_params ⟨[[1]], [[0]]⟩ 1 hsq1 hsq0 0 0
      (by decide) (by decide)).1⟩

/-- C2: the width-1 periodic padding wraps rows, columns and corners
toroidally: `wrap(field,1)[0, h] = field[N-1, h-1]` and
`wrap(field,1)[N+1, h] = field[0, h-1]` for `1 ≤ h ≤ N`, analogously for
columns, and `wrap(field,1)[0,0] = field[N-1, N-1]`. -/
theorem C2_wrap_correctness (m : Field) (N : Nat) (hm : IsSquare m N)
    (hN : 0 < N) (h v : Nat) (h1 : 1 ≤ h) (h2 : h ≤ N)
    (v1 : 1 ≤ v) (v2 : v ≤ N) :
    getQ (wrap_pad m 1) 0 h = getQ m (N - 1) (h - 1) ∧
    getQ (wrap_pad m 1) (N + 1) h = getQ m 0 (h - 1) ∧
    getQ (wrap_pad m 1) v 0 = getQ m (v - 1) (N - 1) ∧
    getQ (wrap_pad m 1) v (N + 1) = getQ m (v - 1) 0 ∧
    getQ (wrap_pad m 1) 0 0 = getQ m (N - 1) (N - 1) := by
  have u0 : unpad N 0 = N - 1 := by simp [unpad]
  have uh : unpad N h = h - 1 := by
    unfold unpad
    rw [if_neg (by omega), if_pos h2]
  have uv : unpad N v = v - 1 := by
    unfold unpad
    rw [if_neg (by omega), if_pos v2]
  have uN : unpad N (N + 1) = 0 := by
    unfold unpad
    rw [if_neg (by omega), if_neg (by omega)]
  refine ⟨?_, ?_, ?_, ?_, ?_⟩
  · rw [getQ_wrap_pad m N hm hN 0 h (by omega) (by omega), u0, uh]
  · rw [getQ_wrap_pad m N hm hN (N + 1) h (by omega) (by omega), uN, uh]
  · rw [getQ_wrap_pad m N hm hN v 0 (by omega) (by omega), uv, u0]
  · rw [getQ_wrap_pad m N hm hN v (N + 1) (by omega) (by omega), uv, uN]
  · rw [getQ_wrap_pad m N hm hN 0 0 (by omega) (by omega), u0]

theorem C2_wrap_correctness_witness :
    IsSquare [[(1 : ℚ), 2], [3, 4]] 2 ∧
    (getQ (wrap_pad [[(1 : ℚ), 2], [3, 4]] 1) 0 1 =
        getQ [[(1 : ℚ), 2], [3, 4]] (2 - 1) (1 - 1) ∧
      getQ (wrap_pad [[(1 : ℚ), 2], [3, 4]] 1) (2 + 1) 1 =
        getQ [[(1 : ℚ), 2], [3, 4]] 0 (1 - 1) ∧
      getQ (wrap_pad [[(1 : ℚ), 2], [3, 4]] 1) 2 0 =
        getQ [[(1 : ℚ), 2], [3, 4]] (2 - 1) (2 - 1) ∧
      getQ (wrap_pad [[(1 : ℚ), 2], [3, 4]] 1) 2 (2 + 1) =
        getQ [[(1 : ℚ), 2], [3, 4]] (2 - 1) 0 ∧
      getQ (wrap_pad [[(1 : ℚ), 2], [3, 4]] 1) 0 0 =
        getQ [[(1 : ℚ), 2], [3, 4]] (2 - 1) (2 - 1)) :=
  ⟨⟨rfl, by decide⟩,
    C2_wrap_correctness [[(1 : ℚ), 2], [3, 4]] 2 ⟨rfl, by decide⟩
      (by decide) 1 2 (by decide) (by decide) (by decide) (by decide)⟩

/-- C5: the reaction operator is pointwise
`ReactA[i,j] = dt * (-A[i,j] * B[i,j]^2 + f * (1 - A[i,j]))` and
`ReactB[i,j] = dt * (A[i,j] * B[i,j]^2 - (k + f) * B[i,j])`, with no
cross-cell dependency, on the pre-step values. -/
theorem C5_react_formulas (p : Params) (A B : Field) (N : Nat)
    (hA : IsSquare A N) (hB : IsSquare B N) (i j : Nat)
    (hi : i < N) (hj : j < N) :
    getQ (react_a p A B) i j =
      p.dt * (-(getQ A i j) * (getQ B i j) ^ 2 +
        p.f * (1 - getQ A i j)) ∧
    getQ (react_b p A B) i j =
      p.dt * (getQ A i j * (getQ B i j) ^ 2 -
        (p.k + p.f) * getQ B i j) := by
  unfold react_a react_b
  rw [getQ_emap2 _ A B N hA hB i j hi hj, getQ_emap2 _ A B N hA hB i j hi hj]
  constructor <;> ring

theorem C5_react_formulas_witness :
    IsSquare [[(2 : ℚ)]] 1 ∧
    (getQ (react_a default_params [[(2 : ℚ)]] [[(3 : ℚ)]]) 0 0 =
      default_params.dt * (-(getQ [[(2 : ℚ)]] 0 0) * (getQ [[(3 : ℚ)]] 0 0) ^ 2 +
        default_params.f * (1 - getQ [[(2 : ℚ)]] 0 0))) :=
  ⟨⟨rfl, by decide⟩,
    (C5_react_formulas default_params [[(2 : ℚ)]] [[(3 : ℚ)]] 1
      ⟨rfl, by decide⟩ ⟨rfl, by decide⟩ 0 0 (by decide) (by decide)).1⟩

/-- C6: diffusion of a constant field is the all-zero `N×N` field,
because the kernel weights sum to zero. -/
theorem C6_uniform_diffusion_zero (m : Field) (N : Nat) (c D dt : ℚ)
    (hm : IsSquare m N)
    (hc : ∀ i, i < N → ∀ j, j < N → getQ m i j = c)
    (i j : Nat) (hi : i < N) (hj : j < N) :
    getQ (diffuse m D dt) i j = 0 ∧ IsSquare (diffuse m D dt) N :=
  ⟨diffuse_const_entry m N c D dt hm hc i j hi hj,
    diffuse_square m N hm D dt⟩

theorem C6_uniform_diffusion_zero_witness :
    IsSquare [[(7 : ℚ), 7], [7, 7]] 2 ∧
    (getQ (diffuse [[(7 : ℚ), 7], [7, 7]] 3 (1/2)) 1 0 = 0 ∧
      IsSquare (diffuse [[(7 : ℚ), 7], [7, 7]] 3 (1/2)) 2) :=
  ⟨⟨rfl, by decide⟩,
    C6_uniform_diffusion_zero [[(7 : ℚ), 7], [7, 7]] 2 7 3 (1/2)
      ⟨rfl, by decide⟩ (by decide) 1 0 (by decide) (by decide)⟩

/-- C8: the run is a pure deterministic function of the initial state
and the parameters: identical inputs give identical EvolutionRecords. -/
theorem C8_deterministic_replay (p₁ p₂ : Params) (s₁ s₂ : State)
    (T S : Nat) (hp : p₁ = p₂) (hs : s₁ = s₂) :
    evolution p₁ s₁ T S = evolution p₂ s₂ T S := by
  rw [hp, hs]

theorem C8_deterministic_replay_witness :
    evolution default_params ⟨[[1]], [[0]]⟩ 2 1 =
      evolution default_params ⟨[[1]], [[0]]⟩ 2 1 :=
  C8_deterministic_replay default_params default_params
    ⟨[[1]], [[0]]⟩ ⟨[[1]], [[0]]⟩ 2 1 rfl rfl

/-- C9: a step maps `N×N` fields to `N×N` fields; in particular the
diffusion of an `N×N` field (width-1 wrap to `(N+2)×(N+2)`, then VALID
3×3 convolution) is again `N×N`. -/
theorem C9_shape_invariance (p : Params) (s : State) (N : Nat)
    (ha : IsSquare s.a N) (hb : IsSquare s.b N) :
    IsSquare (step p s).a N ∧ IsSquare (step p s).b N ∧
    IsSquare (diffuse s.a p.DA p.dt) N ∧
    IsSquare (diffuse s.b p.DB p.dt) N :=
  ⟨step_a_square p s N ha hb, step_b_square p s N ha hb,
    diffuse_square s.a N ha p.DA p.dt, diffuse_square s.b N hb p.DB p.dt⟩

theorem C9_shape_invariance_witness :
    IsSquare [[(1 : ℚ), 2], [3, 4]] 2 ∧
    (IsSquare (step default_params ⟨[[(1 : ℚ), 2], [3, 4]], [[0, 1], [1, 0]]⟩).a 2 ∧
      IsSquare (step default_params ⟨[[(1 : ℚ), 2], [3, 4]], [[0, 1], [1, 0]]⟩).b 2 ∧
      IsSquare (diffuse [[(1 : ℚ), 2], [3, 4]] default_params.DA default_params.dt) 2 ∧
      IsSquare (diffuse [[(0 : ℚ), 1], [1, 0]] default_params.DB default_params.dt) 2) :=
  ⟨⟨rfl, by decide⟩,
    C9_shape_invariance default_params ⟨[[1, 2], [3, 4]], [[0, 1], [1, 0]]⟩ 2
      ⟨rfl, by decide⟩ ⟨rfl, by decide⟩⟩

/-- C10: padding only adds the halo border: the interior cell
`(i+1, j+1)` of `wrap(field,1)` equals `field[i,j]`. -/
theorem C10_wrap_interior_frame (m : Field) (N : Nat)
    (hm : IsSquare m N) (i j : Nat) (hi : i < N) (hj : j < N) :
    getQ (wrap_pad m 1) (i + 1) (j + 1) = getQ m i j := by
  have hN : 0 < N := by omega
  have ui : unpad N (i + 1) = i := by
    unfold unpad
    rw [if_neg (by omega), if_pos (by omega)]
    omega
  have uj : unpad N (j + 1) = j := by
    unfold unpad
    rw [if_neg (by omega), if_pos (by omega)]
    omega
  rw [getQ_wrap_pad m N hm hN (i + 1) (j + 1) (by omega) (by omega), ui, uj]

theorem C10_wrap_interior_frame_witness :
    IsSquare [[(5 : ℚ), 6], [7, 8]] 2 ∧
    getQ (wrap_pad [[(5 : ℚ), 6], [7, 8]] 1) (1 + 1) (0 + 1) =
      getQ [[(5 : ℚ), 6], [7, 8]] 1 0 :=
  ⟨⟨rfl, by decide⟩,
    C10_wrap_interior_frame [[(5 : ℚ), 6], [7, 8]] 2 ⟨rfl, by decide⟩
      1 0 (by decide) (by decide)⟩

/-- C3: with sampling interval `S > 0` and `T` iterations, the
EvolutionRecord has `1 + ⌊T/S⌋` entries; entry 0 is the initial state
and entry `k ≥ 1` is the state after exactly `k·S` applied steps (a
state is retained exactly at the 1-based iteration indices divisible by
`S`, each once). -/
theorem C3_sampling_cadence (p : Params) (init : State) (T S : Nat)
    (_hS : 0 < S) (k : Nat) (hk1 : 1 ≤ k) (hk2 : k ≤ T / S) :
    (evolution p init T S).length = 1 + T / S ∧
    (evolution p init T S)[0]? = some init ∧
    (evolution p init T S)[k]? = some ((step p)^[k * S] init) := by
  rw [evolution_closed]
  refine ⟨?_, by rw [List.getElem?_cons_zero], ?_⟩
  · simp only [List.length_cons, List.length_map, List.length_range]
    omega
  · obtain ⟨k', rfl⟩ : ∃ k', k = k' + 1 := ⟨k - 1, by omega⟩
    rw [List.getElem?_cons_succ, List.getElem?_map,
      List.getElem?_range (by omega)]
    rfl

theorem C3_sampling_cadence_witness :
    0 < 2 ∧
    ((evolution default_params ⟨[[1]], [[0]]⟩ 5 2).length = 1 + 5 / 2 ∧
      (evolution default_params ⟨[[1]], [[0]]⟩ 5 2)[0]? =
        some ⟨[[1]], [[0]]⟩ ∧
      (evolution default_params ⟨[[1]], [[0]]⟩ 5 2)[2]? =
        some ((step default_params)^[2 * 2] ⟨[[1]], [[0]]⟩)) :=
  ⟨by decide,
    C3_sampling_cadence default_params ⟨[[1]], [[0]]⟩ 5 2 (by decide) 2
      (by decide) (by decide)⟩

/-- C4 counterexample: at `N = 4`, `SEED_START = 3`, `SEED_SIZE = 3`
(so `SEED_START + SEED_SIZE > N`) the spec-worded initializer fails,
but the notebook's initialization does not fail: it produces a
well-formed `4×4` state whose seed block is silently clamped to the
grid (cell `(3,3)` is seeded, and the rest of `B` stays `0`). -/
theorem C4_init_counterexample :
    init_spec 4 3 3 = none ∧
    (init_state 4 3 3).b.length = 4 ∧
    getQ (init_state 4 3 3).b 3 3 = 1 ∧
    getQ (init_state 4 3 3).b 0 0 = 0 ∧
    getQ (init_state 4 3 3).a 0 0 = 1 := by decide

/-- C4 amended: initialization never fails.  For every parameter set it
produces `A` all `1.0` and `B` all `0.0` except the cells of the
`SEED_SIZE×SEED_SIZE` block anchored at `(SEED_START, SEED_START)` that
actually lie inside the grid, which are set to `1.0` (NumPy slice
assignment clamps an out-of-range block instead of failing); whenever
`SEED_START + SEED_SIZE ≤ N` the block fits and the produced state is
exactly the one the spec's initializer describes. -/
theorem C4_init_never_fails (N s sz : Nat) (i j : Nat)
    (hi : i < N) (hj : j < N) :
    IsSquare (init_state N s sz).a N ∧
    IsSquare (init_state N s sz).b N ∧
    getQ (init_state N s sz).a i j = 1 ∧
    getQ (init_state N s sz).b i j =
      (if s ≤ i ∧ i < s + sz ∧ s ≤ j ∧ j < s + sz then 1 else 0) ∧
    (s + sz ≤ N → init_spec N s sz = some (init_state N s sz)) := by
  refine ⟨init_a_square N s sz, init_b_square N s sz,
    getQ_init_a N s sz i j hi hj, getQ_init_b N s sz i j hi hj, ?_⟩
  intro hle
  unfold init_spec
  rw [if_neg (by omega)]
  have hspecB : IsSquare ((List.range N).map fun x =>
      (List.range N).map fun y =>
        if s ≤ x ∧ x < s + sz ∧ s ≤ y ∧ y < s + sz then (1 : ℚ) else 0) N := by
    refine ⟨by simp, fun r hr => ?_⟩
    obtain ⟨x, _, rfl⟩ := List.mem_map.mp hr
    simp
  have hB : ((List.range N).map fun x =>
      (List.range N).map fun y =>
        if s ≤ x ∧ x < s + sz ∧ s ≤ y ∧ y < s + sz then (1 : ℚ) else 0) =
      (init_state N s sz).b := by
    apply field_ext _ _ N hspecB (init_b_square N s sz)
    intro x y hx hy
    rw [getQ_init_b N s sz x y hx hy]
    unfold getQ
    rw [getD_range_map _ N x [] hx, getD_range_map _ N y 0 hy]
  rw [hB]
  rfl

theorem C4_init_never_fails_witness :
    IsSquare (init_state 4 1 2).a 4 ∧
    IsSquare (init_state 4 1 2).b 4 ∧
    getQ (init_state 4 1 2).a 1 2 = 1 ∧
    getQ (init_state 4 1 2).b 1 2 =
      (if 1 ≤ 1 ∧ 1 < 1 + 2 ∧ 1 ≤ 2 ∧ 2 < 1 + 2 then 1 else 0) ∧
    (1 + 2 ≤ 4 → init_spec 4 1 2 = some (init_state 4 1 2)) :=
  C4_init_never_fails 4 1 2 1 2 (by decide) (by decide)

/-- Entries of the padded seeded `B` field vanish whenever the padded
row index is outside `101..105` or the padded column index is outside
`101..105` (the padded image of seed rows/columns `100..104`). -/
theorem wrap_init_b_zero (u w : Nat) (hu : u ≤ 401) (hw : w ≤ 401)
    (hout : u < 101 ∨ 105 < u ∨ w < 101 ∨ 105 < w) :
    getQ (wrap_pad (init_state 400 100 5).b 1) u w = 0 := by
  have hb := init_b_square 400 100 5
  rw [getQ_wrap_pad _ 400 hb (by omega) u w (by omega) (by omega),
    getQ_init_b 400 100 5 _ _ (unpad_lt 400 u (by omega))
      (unpad_lt 400 w (by omega))]
  have hu' : unpad 400 u < 100 ∨ 104 < unpad 400 u ∨
      unpad 400 w < 100 ∨ 104 < unpad 400 w := by
    rcases hout with h | h | h | h
    · have : unpad 400 u < 100 ∨ 104 < unpad 400 u := by
        unfold unpad
        split_ifs <;> omega
      tauto
    · have : unpad 400 u < 100 ∨ 104 < unpad 400 u := by
        unfold unpad
        split_ifs <;> omega
      tauto
    · have : unpad 400 w < 100 ∨ 104 < unpad 400 w := by
        unfold unpad
        split_ifs <;> omega
      tauto
    · have : unpad 400 w < 100 ∨ 104 < unpad 400 w := by
        unfold unpad
        split_ifs <;> omega
      tauto
  rw [if_neg (by omega)]

/-- C7: with `D_A = 1, D_B = 0.5, f = 0.055, k = 0.062, dt = 1` and the
seeded 400×400 initial state, after exactly one step every cell
strictly outside the 3×3-dilated neighborhood of the seed patch
(rows/columns `99..105`) still has `A = 1.0` and `B = 0.0` exactly. -/
theorem C7_single_step_outside_seed (i j : Nat) (hi : i < 400)
    (hj : j < 400) (hout : i < 99 ∨ 105 < i ∨ j < 99 ∨ 105 < j) :
    getQ (step default_params (init_state 400 100 5)).a i j = 1 ∧
    getQ (step default_params (init_state 400 100 5)).b i j = 0 := by
  have ha := init_a_square 400 100 5
  have hb := init_b_square 400 100 5
  have hda_sq := diffuse_square (init_state 400 100 5).a 400 ha
    default_params.DA default_params.dt
  have hdb_sq := diffuse_square (init_state 400 100 5).b 400 hb
    default_params.DB default_params.dt
  have hra_sq := react_a_square default_params (init_state 400 100 5).a
    (init_state 400 100 5).b 400 ha hb
  have hrb_sq := react_b_square default_params (init_state 400 100 5).a
    (init_state 400 100 5).b 400 ha hb
  have hconst : ∀ x, x < 400 → ∀ y, y < 400 →
      getQ (init_state 400 100 5).a x y = 1 :=
    fun x hx y hy => getQ_init_a 400 100 5 x y hx hy
  have hA1 : getQ (init_state 400 100 5).a i j = 1 :=
    getQ_init_a 400 100 5 i j hi hj
  have hB0 : getQ (init_state 400 100 5).b i j = 0 := by
    rw [getQ_init_b 400 100 5 i j hi hj, if_neg (by omega)]
  have hdiffa : getQ (diffuse (init_state 400 100 5).a
      default_params.DA default_params.dt) i j = 0 :=
    diffuse_const_entry _ 400 1 _ _ ha hconst i j hi hj
  have hra : getQ (react_a default_params (init_state 400 100 5).a
      (init_state 400 100 5).b) i j = 0 := by
    unfold react_a
    rw [getQ_emap2 _ _ _ 400 ha hb i j hi hj, hA1, hB0]
    ring
  have hrb : getQ (react_b default_params (init_state 400 100 5).a
      (init_state 400 100 5).b) i j = 0 := by
    unfold react_b
    rw [getQ_emap2 _ _ _ 400 ha hb i j hi hj, hA1, hB0]
    ring
  have hdiffb : getQ (diffuse (init_state 400 100 5).b
      default_params.DB default_params.dt) i j = 0 := by
    unfold diffuse
    rw [getQ_conv2d_valid _ _ 400 400 i j
      (wrap_pad_length _ 400 hb (by omega))
      (wrap_pad_headD_length _ 400 hb (by omega)) hi hj]
    have hterm : ∀ di : Fin 3, ∀ dj : Fin 3,
        getQ (wrap_pad (init_state 400 100 5).b 1)
          (i + di.val) (j + dj.val) = 0 := by
      intro di dj
      have hd : di.val < 3 := di.isLt
      have he : dj.val < 3 := dj.isLt
      apply wrap_init_b_zero _ _ (by omega) (by omega)
      omega
    calc (∑ di : Fin 3, ∑ dj : Fin 3,
          getQ (wrap_pad (init_state 400 100 5).b 1)
            (i + di.val) (j + dj.val) *
            scaleK (default_params.DB * default_params.dt) kernel di dj)
        = ∑ di : Fin 3, ∑ dj : Fin 3, (0 : ℚ) := by
          refine Finset.sum_congr rfl fun di _ => ?_
          refine Finset.sum_congr rfl fun dj _ => ?_
          rw [hterm di dj, zero_mul]
      _ = 0 := by simp
  constructor
  · rw [step_a_eq,
      getQ_emap2 _ _ _ 400 (emap2_square _ _ _ 400 ha hda_sq) hra_sq i j hi hj,
      getQ_emap2 _ _ _ 400 ha hda_sq i j hi hj,
      hA1, hdiffa, hra]
    norm_num
  · rw [step_b_eq,
      getQ_emap2 _ _ _ 400 (emap2_square _ _ _ 400 hb hdb_sq) hrb_sq i j hi hj,
      getQ_emap2 _ _ _ 400 hb hdb_sq i j hi hj,
      hB0, hdiffb, hrb]
    norm_num

theorem C7_single_step_outside_seed_witness :
    (0 : Nat) < 400 ∧
    (getQ (step default_params (init_state 400 100 5)).a 0 7 = 1 ∧
      getQ (step default_params (init_state 400 100 5)).b 0 7 = 0) :=
  ⟨by decide,
    C7_single_step_outside_seed 0 7 (by decide) (by decide)
      (by decide)⟩

end RD
